import Mathlib

/-!
Verification of the tool-locker core against its specification.

The Rust sources are shallowly embedded: strings are Lean `String`s
(manipulated through `List Char` helpers with simple equational
behaviour), the `semver` crate's `Version` and `VersionReq` are modelled
by `SemVer` and `VersionReq` below, filesystem and network effects are
made explicit (operation lists, oracle functions, explicit cache state).
-/

namespace Tlk

/-- ASCII digit, as Rust's `char::is_ascii_digit`. -/
def isDigit (c : Char) : Bool := '0' ≤ c && c ≤ '9'

/-- Character allowed in a semver pre-release / build identifier:
ASCII alphanumeric or hyphen. -/
def isIdentChar (c : Char) : Bool :=
  isDigit c || ('a' ≤ c && c ≤ 'z') || ('A' ≤ c && c ≤ 'Z') || c = '-'

/-- Decimal value of a digit string (callers guarantee digits only). -/
def digitsToNat (l : List Char) : Nat :=
  l.foldl (fun n c => 10 * n + (c.toNat - 48)) 0

/-- Strict semver numeric identifier: nonempty, digits only, no leading
zero unless the identifier is exactly "0". -/
def parseNumericId (l : List Char) : Option Nat :=
  if l.isEmpty then none
  else if l.all isDigit then
    if l.head? = some '0' && l.length > 1 then none
    else some (digitsToNat l)
  else none

/-- Split at the first occurrence of `c` (Rust `str::split_once`). -/
def breakAtChar (c : Char) : List Char → Option (List Char × List Char)
  | [] => none
  | x :: xs =>
    if x = c then some ([], xs)
    else (breakAtChar c xs).map (fun p => (x :: p.1, p.2))

/-- Split on every occurrence of `c` (Rust `str::split(char)`). -/
def splitChar (c : Char) : List Char → List (List Char)
  | [] => [[]]
  | x :: xs =>
    if x = c then [] :: splitChar c xs
    else
      match splitChar c xs with
      | [] => [[x]]
      | h :: t => (x :: h) :: t

/-- Substring containment (Rust `str::contains(&str)`). -/
def containsList (pat : List Char) : List Char → Bool
  | [] => pat.isEmpty
  | c :: rest => pat.isPrefixOf (c :: rest) || containsList pat rest

/-- String-level wrapper for `containsList`. -/
def containsSub (s pat : String) : Bool := containsList pat.toList s.toList

/-- Rust `str::contains(char)`. -/
def containsChar (s : String) (c : Char) : Bool := s.toList.contains c

/-- Unicode-whitespace trim of both ends (Rust `str::trim`). -/
def trimList (l : List Char) : List Char :=
  ((l.dropWhile Char.isWhitespace).reverse.dropWhile Char.isWhitespace).reverse

/-- String-level wrapper for `trimList`. -/
def trimStr (s : String) : String := String.mk (trimList s.toList)

/-- Part splitter for Rust `str::replace` (which splits on every
non-overlapping occurrence of the pattern, left to right, and joins with
the replacement). The `Nat` argument counts pattern characters still to
be skipped after a match; callers never pass an empty pattern. -/
def splitPatAux (pat : List Char) : List Char → Nat → List (List Char)
  | [], _ => [[]]
  | _ :: rest, k + 1 => splitPatAux pat rest k
  | c :: rest, 0 =>
    if pat.isPrefixOf (c :: rest) && !pat.isEmpty then
      [] :: splitPatAux pat rest (pat.length - 1)
    else
      match splitPatAux pat rest 0 with
      | [] => [[c]]
      | h :: t => (c :: h) :: t

/-- Replace every non-overlapping occurrence of `pat`, scanning left to
right (Rust `str::replace`). -/
def replaceList (pat repl : List Char) (l : List Char) : List Char :=
  List.intercalate repl (splitPatAux pat l 0)

/-- String-level wrapper for `replaceList`. -/
def strReplace (s pat repl : String) : String :=
  String.mk (replaceList pat.toList repl.toList s.toList)

/-- Rust `str::split_once(char)` on strings. -/
def splitOnceChar (s : String) (c : Char) : Option (String × String) :=
  (breakAtChar c s.toList).map (fun p => (String.mk p.1, String.mk p.2))

/-- Rust `str::starts_with(&str)`. -/
def strStartsWith (s pre : String) : Bool := pre.toList.isPrefixOf s.toList

/-- Rust `str::ends_with(&str)`. -/
def strEndsWith (s suf : String) : Bool := suf.toList.isSuffixOf s.toList

/-- Decidable equality for `Except` results, used to settle concrete
runs. -/
instance {ε α : Type} [DecidableEq ε] [DecidableEq α] :
    DecidableEq (Except ε α) := fun a b =>
  match a, b with
  | .ok x, .ok y =>
    if h : x = y then isTrue (by rw [h]) else isFalse (by simp [h])
  | .error x, .error y =>
    if h : x = y then isTrue (by rw [h]) else isFalse (by simp [h])
  | .ok _, .error _ => isFalse (by simp)
  | .error _, .ok _ => isFalse (by simp)

/-! ## The `semver` crate's `Version` -/

/-- Rust `semver::Version`: strict MAJOR.MINOR.PATCH with optional
pre-release and build identifier lists (kept as raw strings, as the
crate keeps them). -/
structure SemVer where
  major : Nat
  minor : Nat
  patch : Nat
  pre : List String := []
  build : List String := []
deriving DecidableEq, Repr

/-- Valid pre-release identifier: nonempty, alphanumeric/hyphen, and a
purely numeric identifier has no leading zero. -/
def validPreId (l : List Char) : Bool :=
  !l.isEmpty && l.all isIdentChar &&
    !(l.all isDigit && l.head? = some '0' && l.length > 1)

/-- Valid build identifier: nonempty, alphanumeric/hyphen (leading zeros
are allowed in build metadata). -/
def validBuildId (l : List Char) : Bool :=
  !l.isEmpty && l.all isIdentChar

/-- Parse a dot-separated identifier section; every identifier must pass
`validId`. -/
def parseIdentSection (validId : List Char → Bool) (l : List Char) :
    Option (List String) :=
  let ids := splitChar '.' l
  if ids.all validId then some (ids.map String.mk) else none

/-- Rust `semver::Version::parse` (strict). Build metadata is cut at the
first `+`, the pre-release at the first `-` before it; the remaining core
must be exactly three strict numeric identifiers. -/
def SemVer.parseList (l : List Char) : Option SemVer :=
  let (corePre, buildPart) :=
    match breakAtChar '+' l with
    | some (a, b) => (a, some b)
    | none => (l, none)
  let (core, prePart) :=
    match breakAtChar '-' corePre with
    | some (a, b) => (a, some b)
    | none => (corePre, none)
  match splitChar '.' core with
  | [ma, mi, pa] =>
    match parseNumericId ma, parseNumericId mi, parseNumericId pa with
    | some major, some minor, some patch =>
      let preIds := match prePart with
        | none => some []
        | some p => parseIdentSection validPreId p
      let buildIds := match buildPart with
        | none => some []
        | some b => parseIdentSection validBuildId b
      match preIds, buildIds with
      | some pre, some build => some ⟨major, minor, patch, pre, build⟩
      | _, _ => none
    | _, _, _ => none
  | _ => none

/-- `semver::Version::parse` on a `String`. -/
def SemVer.parse (s : String) : Option SemVer := SemVer.parseList s.toList

/-- Rust `Display for Version`. -/
def SemVer.toString (v : SemVer) : String :=
  s!"{v.major}.{v.minor}.{v.patch}"
    ++ (if v.pre.isEmpty then "" else "-" ++ String.intercalate "." v.pre)
    ++ (if v.build.isEmpty then "" else "+" ++ String.intercalate "." v.build)

/-- Whether `lhs.parse::<u64>()` succeeds in Rust: digits only, nonempty
(leading zeros are fine for `u64` parsing). -/
def identIsNum (s : String) : Bool := !s.toList.isEmpty && s.toList.all isDigit

/-- Pre-release identifier comparison (`semver`'s `Ord for Prerelease`,
per identifier): numeric before alphanumeric, numeric by value,
alphanumeric lexically. -/
def cmpPreIdent (a b : String) : Ordering :=
  match identIsNum a, identIsNum b with
  | true, true => compare (digitsToNat a.toList) (digitsToNat b.toList)
  | true, false => .lt
  | false, true => .gt
  | false, false => compare a b

/-- Build identifier comparison (`semver`'s `Ord for BuildMetadata`, per
identifier): both numeric compare by value then by length. -/
def cmpBuildIdent (a b : String) : Ordering :=
  match identIsNum a, identIsNum b with
  | true, true =>
    match compare (digitsToNat a.toList) (digitsToNat b.toList) with
    | .eq => compare a.length b.length
    | o => o
  | true, false => .lt
  | false, true => .gt
  | false, false => compare a b

/-- Lexicographic list comparison with a shorter list first on ties. -/
def cmpIdList (f : String → String → Ordering) : List String → List String → Ordering
  | [], [] => .eq
  | [], _ :: _ => .lt
  | _ :: _, [] => .gt
  | a :: as, b :: bs =>
    match f a b with
    | .eq => cmpIdList f as bs
    | o => o

/-- `Ord for Prerelease`: an empty pre-release (a normal release) sorts
above every pre-release. -/
def cmpPre (a b : List String) : Ordering :=
  match a, b with
  | [], [] => .eq
  | [], _ :: _ => .gt
  | _ :: _, [] => .lt
  | a, b => cmpIdList cmpPreIdent a b

/-- `Ord for BuildMetadata`: empty build metadata sorts first. -/
def cmpBuild (a b : List String) : Ordering :=
  match a, b with
  | [], [] => .eq
  | [], _ :: _ => .lt
  | _ :: _, [] => .gt
  | a, b => cmpIdList cmpBuildIdent a b

/-- `Ord for Version` (the crate's total order: numeric triple, then
pre-release precedence, then build metadata). -/
def SemVer.cmp (a b : SemVer) : Ordering :=
  match compare a.major b.major with
  | .eq =>
    match compare a.minor b.minor with
    | .eq =>
      match compare a.patch b.patch with
      | .eq =>
        match cmpPre a.pre b.pre with
        | .eq => cmpBuild a.build b.build
        | o => o
      | o => o
    | o => o
  | o => o

/-- `a < b` on versions. -/
def SemVer.lt (a b : SemVer) : Bool := SemVer.cmp a b = Ordering.lt

/-- `a > b` on versions. -/
def SemVer.gt (a b : SemVer) : Bool := SemVer.cmp a b = Ordering.gt

/-- `a ≥ b` on versions. -/
def SemVer.ge (a b : SemVer) : Bool := !SemVer.lt a b

/-! ## The `semver` crate's `VersionReq`

The crate parses a version requirement as comma-separated comparators
(whitespace alone does not separate comparators: `">=1 <=2"` is a parse
error). A bare version means caret; `*`, `x`, `X` alone is the match-all
requirement with an empty comparator list. -/

/-- Comparator operators of `semver::Op`. -/
inductive ReqOp
  | exact | greater | greaterEq | less | lessEq | tilde | caret | wildcard
deriving DecidableEq, Repr

/-- `semver::Comparator` (build metadata is parsed but dropped). -/
structure Comparator where
  op : ReqOp
  major : Nat
  minor : Option Nat := none
  patch : Option Nat := none
  pre : List String := []
deriving DecidableEq, Repr

/-- A parsed version requirement. -/
structure VersionReq where
  comparators : List Comparator
deriving DecidableEq, Repr

/-- Wildcard characters accepted by the requirement grammar. -/
def isWildcardChar (c : Char) : Bool := c = '*' || c = 'x' || c = 'X'

/-- Skip ASCII spaces. -/
def skipSpaces (l : List Char) : List Char := l.dropWhile (· = ' ')

/-- Parse a comparator operator prefix, if one is written. -/
def parseOp : List Char → Option (ReqOp × List Char)
  | '>' :: '=' :: rest => some (.greaterEq, rest)
  | '<' :: '=' :: rest => some (.lessEq, rest)
  | '>' :: rest => some (.greater, rest)
  | '<' :: rest => some (.less, rest)
  | '=' :: rest => some (.exact, rest)
  | '~' :: rest => some (.tilde, rest)
  | '^' :: rest => some (.caret, rest)
  | _ => none

/-- Parse a dot-separated identifier run (pre-release or build section of
a comparator), consuming identifier characters and the dots between
identifier runs. -/
def parseDotIdents (validId : List Char → Bool) (l : List Char) :
    Option (List String × List Char) :=
  let id1 := l.takeWhile isIdentChar
  let rest := l.dropWhile isIdentChar
  if validId id1 then
    match h : rest with
    | '.' :: rest2 =>
      match parseDotIdents validId rest2 with
      | some (ids, rest3) => some (String.mk id1 :: ids, rest3)
      | none => none
    | _ => some ([String.mk id1], rest)
  else none
termination_by l.length
decreasing_by
  have hle : (l.dropWhile isIdentChar).length ≤ l.length :=
    (List.dropWhile_sublist isIdentChar (l := l)).length_le
  have h2 : List.dropWhile isIdentChar l = '.' :: rest2 := h
  simp only [h2, List.length_cons] at hle
  omega

/-- Parse a `u64` numeric identifier (strict, no leading zeros) and
return the rest of the input. -/
def parseNumPart (l : List Char) : Option (Nat × List Char) :=
  let ds := l.takeWhile isDigit
  match parseNumericId ds with
  | some n => some (n, l.dropWhile isDigit)
  | none => none

/-- Parse the `[-pre][+build]` tail of a comparator; build identifiers are
validated then dropped, as the crate drops them. -/
def parsePreBuildTail (l : List Char) : Option (List String × List Char) :=
  match l with
  | '-' :: rest =>
    match parseDotIdents validPreId rest with
    | some (pre, rest2) =>
      match rest2 with
      | '+' :: rest3 =>
        match parseDotIdents validBuildId rest3 with
        | some (_, rest4) => some (pre, rest4)
        | none => none
      | _ => some (pre, rest2)
    | none => none
  | '+' :: rest =>
    match parseDotIdents validBuildId rest with
    | some (_, rest2) => some ([], rest2)
    | none => none
  | _ => some ([], l)

/-- Parse one comparator: optional operator, spaces, then
`major[.minor[.patch[-pre][+build]]]` where minor and patch may be
wildcards (a wildcard component ends the version part; an explicit
operator keeps its meaning, otherwise the comparator becomes a wildcard
comparator). -/
def parseComparator (l : List Char) : Option (Comparator × List Char) :=
  let (opOpt, l1) :=
    match parseOp l with
    | some (op, rest) => (some op, rest)
    | none => (none, l)
  let l2 := skipSpaces l1
  match parseNumPart l2 with
  | none => none
  | some (major, l3) =>
    let op0 := opOpt.getD .caret
    let opW := if opOpt.isNone then ReqOp.wildcard else op0
    match l3 with
    | '.' :: l4 =>
      match l4 with
      | w :: l5 =>
        if isWildcardChar w then
          match l5 with
          | '.' :: w2 :: l6 =>
            if isWildcardChar w2 then
              some (⟨opW, major, none, none, []⟩, l6)
            else none
          | '.' :: [] => none
          | _ => some (⟨opW, major, none, none, []⟩, l5)
        else
          match parseNumPart (w :: l5) with
          | none => none
          | some (minor, l6) =>
            match l6 with
            | '.' :: l7 =>
              match l7 with
              | w2 :: l8 =>
                if isWildcardChar w2 then
                  some (⟨opW, major, some minor, none, []⟩, l8)
                else
                  match parseNumPart (w2 :: l8) with
                  | none => none
                  | some (patch, l9) =>
                    match parsePreBuildTail l9 with
                    | some (pre, l10) =>
                      some (⟨op0, major, some minor, some patch, pre⟩, l10)
                    | none => none
              | [] => none
            | _ => some (⟨op0, major, some minor, none, []⟩, l6)
      | [] => none
    | _ => some (⟨op0, major, none, none, []⟩, l3)

/-- Parse one comma-separated piece as exactly one comparator surrounded
by optional spaces. -/
def parseFullComparator (l : List Char) : Option Comparator :=
  match parseComparator (skipSpaces l) with
  | some (c, rest) => if (skipSpaces rest).isEmpty then some c else none
  | none => none

/-- Rust `semver::VersionReq::parse`: `*`/`x`/`X` alone is the match-all
requirement; otherwise comma-separated comparators. -/
def VersionReq.parse (s : String) : Option VersionReq :=
  let l := skipSpaces s.toList
  match l with
  | [] => none
  | w :: rest =>
    if isWildcardChar w && (skipSpaces rest).isEmpty then
      some ⟨[]⟩
    else
      ((splitChar ',' l).mapM parseFullComparator).map VersionReq.mk

/-- `v.pre > c.pre` under pre-release precedence. -/
def preGt (a b : List String) : Bool := cmpPre a b = Ordering.gt

/-- `v.pre < c.pre` under pre-release precedence. -/
def preLt (a b : List String) : Bool := cmpPre a b = Ordering.lt

/-- `v.pre ≥ c.pre` under pre-release precedence. -/
def preGe (a b : List String) : Bool := !preLt a b

/-- `matches_exact` of the crate (also used by wildcard comparators). -/
def Comparator.matchesExact (c : Comparator) (v : SemVer) : Bool :=
  v.major = c.major
  && (match c.minor with | none => true | some m => v.minor = m)
  && (match c.patch with | none => true | some p => v.patch = p)
  && v.pre = c.pre

/-- `matches_greater` of the crate. -/
def Comparator.matchesGreater (c : Comparator) (v : SemVer) : Bool :=
  if v.major ≠ c.major then v.major > c.major
  else
    match c.minor with
    | none => false
    | some m =>
      if v.minor ≠ m then v.minor > m
      else
        match c.patch with
        | none => false
        | some p =>
          if v.patch ≠ p then v.patch > p
          else preGt v.pre c.pre

/-- `matches_less` of the crate. -/
def Comparator.matchesLess (c : Comparator) (v : SemVer) : Bool :=
  if v.major ≠ c.major then v.major < c.major
  else
    match c.minor with
    | none => false
    | some m =>
      if v.minor ≠ m then v.minor < m
      else
        match c.patch with
        | none => false
        | some p =>
          if v.patch ≠ p then v.patch < p
          else preLt v.pre c.pre

/-- `matches_tilde` of the crate. -/
def Comparator.matchesTilde (c : Comparator) (v : SemVer) : Bool :=
  if v.major ≠ c.major then false
  else if (match c.minor with | none => false | some m => v.minor ≠ m) then false
  else
    match c.patch with
    | some p => if v.patch ≠ p then v.patch > p else preGe v.pre c.pre
    | none => preGe v.pre c.pre

/-- `matches_caret` of the crate. -/
def Comparator.matchesCaret (c : Comparator) (v : SemVer) : Bool :=
  if v.major ≠ c.major then false
  else
    match c.minor with
    | none => true
    | some m =>
      match c.patch with
      | none =>
        if c.major > 0 then v.minor ≥ m else v.minor = m
      | some p =>
        if c.major > 0 then
          if v.minor ≠ m then v.minor > m
          else if v.patch ≠ p then v.patch > p
          else preGe v.pre c.pre
        else if m > 0 then
          if v.minor ≠ m then false
          else if v.patch ≠ p then v.patch > p
          else preGe v.pre c.pre
        else if v.minor ≠ m || v.patch ≠ p then false
        else preGe v.pre c.pre

/-- Comparator dispatch (`matches_impl` of the crate). -/
def Comparator.matchesImpl (c : Comparator) (v : SemVer) : Bool :=
  match c.op with
  | .exact => c.matchesExact v
  | .wildcard => c.matchesExact v
  | .greater => c.matchesGreater v
  | .greaterEq => c.matchesExact v || c.matchesGreater v
  | .less => c.matchesLess v
  | .lessEq => c.matchesExact v || c.matchesLess v
  | .tilde => c.matchesTilde v
  | .caret => c.matchesCaret v

/-- `pre_is_compatible` of the crate: a pre-release version may match
only through a comparator carrying the same numeric triple and a
nonempty pre-release. -/
def preIsCompatible (c : Comparator) (v : SemVer) : Bool :=
  c.major = v.major && c.minor = some v.minor && c.patch = some v.patch
    && !c.pre.isEmpty

/-- `VersionReq::matches`. -/
def VersionReq.matches (r : VersionReq) (v : SemVer) : Bool :=
  r.comparators.all (fun c => c.matchesImpl v)
  && (v.pre.isEmpty || r.comparators.any (fun c => preIsCompatible c v))

/-! ## config.rs: the manifest data model -/

/-- `config::ToolKind`. -/
inductive ToolKind
  | archive | direct
deriving DecidableEq, Repr

/-- `config::ArchSources` (per-arch template overrides, with synonyms). -/
structure ArchSources where
  amd64 : Option String := none
  arm64 : Option String := none
  x86_64 : Option String := none
  aarch64 : Option String := none
deriving DecidableEq, Repr

/-- `config::PerOsSources`. -/
structure PerOsSources where
  linux : Option String := none
  mac : Option String := none
  windows : Option String := none
deriving DecidableEq, Repr

/-- `config::PerOsArchSources`. -/
structure PerOsArchSources where
  linux : Option ArchSources := none
  mac : Option ArchSources := none
  windows : Option ArchSources := none
deriving DecidableEq, Repr

/-- `config::Tool`. -/
structure Tool where
  name : String
  version : String
  kind : ToolKind := .archive
  source : String := ""
  sha256 : Option String := none
  binary : Option String := none
  install_dir : Option String := none
  per_os : Option PerOsSources := none
  per_os_arch : Option PerOsArchSources := none
deriving DecidableEq, Repr

/-- `Tool::effective_source_template`: per-OS-arch override, then per-OS,
then the base template (the final `x86_64` test of the Rust `match` is
kept although the earlier arm already captured it). -/
def Tool.effective_source_template (t : Tool) (os arch : String) : String :=
  let fromPerOsArch : Option String :=
    match t.per_os_arch with
    | none => none
    | some per =>
      let osEntry : Option ArchSources :=
        if os = "linux" then per.linux
        else if os = "darwin" then per.mac
        else if os = "macos" then per.mac
        else if os = "windows" then per.windows
        else none
      match osEntry with
      | none => none
      | some archSources =>
        if arch = "amd64" || arch = "x86_64" then
          archSources.amd64 <|> archSources.x86_64
        else if arch = "arm64" || arch = "aarch64" then
          archSources.arm64 <|> archSources.aarch64
        else if arch = "x86_64" then archSources.x86_64
        else none
  match fromPerOsArch with
  | some tpl => tpl
  | none =>
    let fromPerOs : Option String :=
      match t.per_os with
      | none => none
      | some per =>
        if os = "linux" then per.linux
        else if os = "darwin" then per.mac
        else if os = "macos" then per.mac
        else if os = "windows" then per.windows
        else none
    match fromPerOs with
    | some tpl => tpl
    | none => t.source

/-! ## installer.rs: URL rendering and range helpers -/

/-- `installer::render_source`, with the detected placeholders and the
platform's `adjust_direct_url` passed explicitly (the Unix
implementation is the identity). -/
def render_source (os arch : String) (adjust : String → String) (t : Tool) : String :=
  let template := t.effective_source_template os arch
  adjust (strReplace (strReplace (strReplace template "{version}" t.version)
    "{os}" os) "{arch}" arch)

/-- `installer::is_range`. -/
def is_range (spec : String) : Bool :=
  if (SemVer.parse (trimStr spec)).isSome then false
  else
    let s := trimStr spec
    (["^", "~", "*", "x", "X", "||", "-", ">", "<", "=", " "].any
      (fun t => containsSub s t))

/-- `installer::range_satisfies`: normalize wildcards, rewrite a hyphen
range, then check satisfaction with `VersionReq`. -/
def range_satisfies (range version : String) : Bool :=
  match SemVer.parse (trimStr version) with
  | none => false
  | some v =>
    let r := trimStr range
    let r := String.mk (r.toList.map (fun c => if c = '*' then 'x' else c))
    let r :=
      if containsChar r '-' && containsChar r ' ' then
        match splitOnceChar r '-' with
        | some (a, b) =>
          let a := trimStr a
          let b := trimStr b
          if !a.isEmpty && !b.isEmpty then ">=" ++ a ++ " <=" ++ b else r
        | none => r
      else r
    match VersionReq.parse r with
    | some req => req.matches v
    | none => false

/-! ## lock.rs: lock file model -/

/-- `lock::LockedEntry` (schema v3); the `sources` map is modelled as an
association list with distinct keys. -/
structure LockedEntry where
  version : String
  requested_version : Option String := none
  source : String := ""
  source_template : Option String := none
  platform : Option String := none
  sources : Option (List (String × String)) := none
  sha256 : Option String := none
  digest : Option String := none
deriving DecidableEq, Repr

/-- `lock::LockFile`; `generated` is kept as an opaque timestamp string
and the tools map as an association list. -/
structure LockFile where
  generated : String := ""
  tlk_version : Option String := none
  schema : Option Nat := none
  tools : List (String × LockedEntry) := []
deriving DecidableEq, Repr

/-- HashMap `get` on the association-list model. -/
def alistGet {α : Type} (m : List (String × α)) (k : String) : Option α :=
  (m.find? (fun p => p.1 = k)).map Prod.snd

/-- `lock::to_locked_entry`. `envOS`/`envARCH` stand for the raw
`std::env::consts::OS` / `::ARCH` strings of the host that writes the
lock (`"linux"`/`"x86_64"` on a linux/amd64 host). -/
def to_locked_entry (envOS envARCH : String) (name exact_version : String)
    (requested_version : Option String) (rendered_source template : String)
    (sha256 : Option String) (digest : Option String) : String × LockedEntry :=
  let platform_key := envOS ++ "-" ++ envARCH
  let sources : List (String × String) :=
    if containsSub template "{os}" && containsSub template "{arch}" then
      (["linux", "darwin", "windows"].map (fun o =>
        ["amd64", "arm64"].map (fun a =>
          (o ++ "-" ++ a,
           strReplace (strReplace (strReplace template "{version}" exact_version)
             "{os}" o) "{arch}" a)))).flatten
    else []
  (name,
   { version := exact_version
     requested_version := requested_version
     source := rendered_source
     source_template := some template
     platform := some platform_key
     sources := if sources.isEmpty then none else some sources
     sha256 := sha256
     digest := digest })

/-- A filesystem write effect, to make the shape of `LockFile::save`
explicit. -/
inductive FsOp
  | write (path contents : String)
  | rename (src dst : String)
deriving DecidableEq, Repr

/-- The clone mutation `LockFile::save` performs before serializing:
stamp the writer's version, default the schema to 3. -/
def LockFile.saveNormalized (tlkVersion : String) (lf : LockFile) : LockFile :=
  { lf with
    tlk_version := some tlkVersion
    schema := if lf.schema.isNone then some 3 else lf.schema }

/-- The filesystem operations `LockFile::save` performs: it serializes
the normalized clone and hands the result to a single `fs::write` at the
lock path. `serialize` stands for `toml::to_string_pretty`. -/
def LockFile.saveOps (serialize : LockFile → String) (tlkVersion : String)
    (lf : LockFile) (path : String) : List FsOp :=
  [FsOp.write path (serialize (LockFile.saveNormalized tlkVersion lf))]

/-! ## installer.rs: verify_lockfile -/

/-- The error messages `verify_lockfile` accumulates for one manifest
tool. `digestOf` is the outcome of `compute_installed_digest` (`none`
models its `Err`); `adjust` is the platform's `adjust_direct_url`. -/
def verify_tool_errors (os arch : String) (adjust : String → String)
    (digestOf : Tool → Option String) (lock : LockFile) (t : Tool) : List String :=
  match alistGet lock.tools t.name with
  | none => ["tool '" ++ t.name ++ "' missing from lock"]
  | some lt =>
    (if is_range t.version then
       if !range_satisfies t.version lt.version then
         ["tool '" ++ t.name ++ "' locked version " ++ lt.version
           ++ " does not satisfy range " ++ t.version]
       else []
     else if lt.version ≠ t.version then
       ["tool '" ++ t.name ++ "' version mismatch lock=" ++ lt.version
         ++ " config=" ++ t.version]
     else [])
    ++ (match lt.source_template with
        | some tpl =>
          let expected := strReplace (strReplace (strReplace tpl
            "{version}" lt.version) "{os}" os) "{arch}" arch
          let rendered := strReplace (render_source os arch adjust t)
            t.version lt.version
          if expected ≠ rendered then ["tool '" ++ t.name ++ "' source mismatch"]
          else []
        | none => [])
    ++ (match t.sha256, lt.sha256 with
        | some cfgSum, some lockSum =>
          if cfgSum ≠ lockSum then ["tool '" ++ t.name ++ "' checksum mismatch"]
          else []
        | _, _ => [])
    ++ (match lt.digest with
        | some expected =>
          match digestOf t with
          | some actual =>
            if actual ≠ expected then ["tool '" ++ t.name ++ "' digest mismatch"]
            else []
          | none => []
        | none => [])

/-- `installer::verify_lockfile` over a loaded lock (`none` models a
missing lock file, which the function reports and accepts). -/
def verify_lockfile (os arch : String) (adjust : String → String)
    (digestOf : Tool → Option String) (cfg : List Tool)
    (lock : Option LockFile) : Except String Unit :=
  match lock with
  | none => .ok ()
  | some lock =>
    let errors := cfg.flatMap (verify_tool_errors os arch adjust digestOf lock)
    if errors.isEmpty then .ok ()
    else .error ("lock verification failed:\n - "
      ++ String.intercalate "\n - " errors)

/-! ## installer.rs: skip-if-installed, archives, bulk install -/

/-- Split on whitespace, dropping empty pieces (Rust
`str::split_whitespace`). -/
def splitP (p : Char → Bool) : List Char → List (List Char)
  | [] => [[]]
  | x :: xs =>
    if p x then [] :: splitP p xs
    else
      match splitP p xs with
      | [] => [[x]]
      | h :: t => (x :: h) :: t

/-- Rust `str::split_whitespace`. -/
def split_whitespace (s : String) : List String :=
  ((splitP Char.isWhitespace s.toList).filter (fun l => !l.isEmpty)).map String.mk

/-- First token of `--version` output that parses as semver after
stripping leading `v`s, rendered back; `"unknown"` if none. -/
def first_semver_token : List String → String
  | [] => "unknown"
  | tok :: rest =>
    match SemVer.parse (String.mk (tok.toList.dropWhile (· = 'v'))) with
    | some v => v.toString
    | none => first_semver_token rest

/-- `installer::extract_version_from_binary`, as a function of the
subprocess stdout. -/
def extract_version_from_binary (stdout : String) : String :=
  first_semver_token (split_whitespace stdout)

/-- What `install_tool` does after the skip check. -/
inductive InstallStep
  | skip | downloadArchive | downloadDirect
deriving DecidableEq, Repr

/-- The skip decision of `installer::install_tool`: `find_installed`
is the result of `find_installed_version` (`none` models its `Err`);
anything but a string equal to `tool.version` leads to a download. -/
def install_tool_step (find_installed : Option String) (t : Tool) : InstallStep :=
  match find_installed with
  | some installed =>
    if installed = t.version then .skip
    else match t.kind with
      | .archive => .downloadArchive
      | .direct => .downloadDirect
  | none =>
    match t.kind with
    | .archive => .downloadArchive
    | .direct => .downloadDirect

/-- `platform/unix.rs` (cli) `candidate_archive_entry_names`, with the
detected OS/arch passed in. -/
def candidate_archive_entry_names (os arch : String) (base : String) : List String :=
  [base, os ++ "-" ++ arch ++ "/" ++ base, os ++ "_" ++ arch ++ "/" ++ base,
   "bin/" ++ base]

/-- Path components for `std::path::Path::ends_with`: split on `/`,
dropping empty and `.` pieces. -/
def pathComponents (s : String) : List String :=
  ((splitChar '/' s.toList).map String.mk).filter (fun c => c ≠ "" && c ≠ ".")

/-- `Path::ends_with`: component-wise suffix (used by the tar branch). -/
def pathEndsWith (entry candidate : String) : Bool :=
  (pathComponents candidate).isSuffixOf (pathComponents entry)

/-- Entry match in the `.tar.gz` branch: `e.path().ends_with(c)`. -/
def tar_entry_matches (candidates : List String) (path : String) : Bool :=
  candidates.any (fun c => pathEndsWith path c)

/-- Entry match in the `.zip` branch: `file.name().ends_with(c)`
(string suffix). -/
def zip_entry_matches (candidates : List String) (name : String) : Bool :=
  candidates.any (fun c => strEndsWith name c)

/-- The extraction loop: every matching entry is written over the target
binary in turn, so the surviving contents are the last match's. -/
def extract_matching (entryMatches : String → Bool)
    (entries : List (String × String)) : Option String :=
  entries.foldl (fun acc e => if entryMatches e.1 then some e.2 else acc) none

/-- `installer::install_archive` after a successful download, as a
function of the URL and the decoded archive entries
(name, contents); returns the bytes installed as the binary. -/
def install_archive (os arch : String) (t : Tool) (url : String)
    (entries : List (String × String)) : Except String String :=
  let bin_rel := t.binary.getD t.name
  let candidates := candidate_archive_entry_names os arch bin_rel
  if strEndsWith url ".tar.gz" || strEndsWith url ".tgz" then
    match extract_matching (tar_entry_matches candidates) entries with
    | some bytes => .ok bytes
    | none => .error ("did not find expected binary '" ++ bin_rel
        ++ "' inside archive for " ++ t.name)
  else if strEndsWith url ".zip" then
    match extract_matching (zip_entry_matches candidates) entries with
    | some bytes => .ok bytes
    | none => .error ("did not find expected binary '" ++ bin_rel
        ++ "' inside archive for " ++ t.name)
  else .error ("unsupported archive type for " ++ url)

/-- `installer::install_tools_parallel`: one worker per tool, results
collected as (name, outcome); `outcome` is each worker's
`install_tool` result. -/
def install_tools_parallel (outcome : Tool → Except String Unit)
    (tools : List Tool) : List (String × Except String Unit) :=
  tools.map (fun t => (t.name, outcome t))

/-- `installer::summarize_parallel`. -/
def summarize_parallel (results : List (String × Except String Unit)) :
    Except String Unit :=
  let failures := results.filter (fun r =>
    match r.2 with | .error _ => true | .ok _ => false)
  if failures.isEmpty then .ok ()
  else .error (toString failures.length ++ " tool(s) failed")

/-- `installer::install_all_sequential`: runs every install, reports
each failure only on the progress line, and returns success always. -/
def install_all_sequential (outcome : Tool → Except String Unit)
    (cfg : List Tool) : Except String Unit :=
  let _results := cfg.map (fun t => (t.name, outcome t))
  .ok ()

/-- `installer::install_all`: one tool or none goes through the
sequential path, two or more through the parallel path. -/
def install_all (outcome : Tool → Except String Unit) (cfg : List Tool) :
    Except String Unit :=
  if cfg.length ≤ 1 then install_all_sequential outcome cfg
  else summarize_parallel (install_tools_parallel outcome cfg)

/-! ## versioning.rs: the memoized version index -/

/-- The process-wide `VERSION_CACHE` contents. -/
structure VersionCache where
  entries : List (String × List SemVer) := []
deriving DecidableEq, Repr

/-- Descending stable insertion, for `sort_by(|a, b| b.cmp(a))`. -/
def insertDesc (v : SemVer) : List SemVer → List SemVer
  | [] => [v]
  | x :: xs => if SemVer.gt v x then v :: x :: xs else x :: insertDesc v xs

/-- Stable descending sort (`sort_by(|a, b| b.cmp(a))`). -/
def sortDesc : List SemVer → List SemVer
  | [] => []
  | x :: xs => insertDesc x (sortDesc xs)

/-- `versioning::fetch_all_versions` with the cache state explicit.
`fetchRaw` stands for the per-name release-index adapters (network;
an unsupported name is one of its errors). The returned `Bool` records
whether the adapter was consulted. On a cache hit the adapter is not
consulted and the state is unchanged; on a miss, parse failures are
discarded, the rest sorted descending and memoized. -/
def fetch_all_versions (fetchRaw : String → Except String (List String))
    (cache : VersionCache) (name : String) :
    Except String (List SemVer) × VersionCache × Bool :=
  match alistGet cache.entries name with
  | some list => (.ok list, cache, false)
  | none =>
    match fetchRaw name with
    | .error e => (.error e, cache, true)
    | .ok raw =>
      let parsed := sortDesc (raw.filterMap SemVer.parse)
      (.ok parsed, ⟨(name, parsed) :: cache.entries⟩, true)

/-! ## command_handlers/install.rs: resolve_version

`spec.split("||")` is embedded as `splitOr`; the lemmas that follow
support the termination of the mutually recursive OR / hyphen-range
rewriting (the hyphen rewrite consumes a hyphen, an OR clause contains
no further `||`). -/

/-- Rust `str::split("||")`. -/
def splitOr : List Char → List (List Char)
  | [] => [[]]
  | '|' :: '|' :: rest => [] :: splitOr rest
  | c :: rest =>
    match splitOr rest with
    | [] => [[c]]
    | h :: t => (c :: h) :: t

theorem splitOr_head (l : List Char) :
    ∀ h t, splitOr l = h :: t → h = [] ∨ h.head? = l.head? := by
  induction l using splitOr.induct with
  | case1 => intro h t he; rw [splitOr.eq_1] at he; cases he; left; rfl
  | case2 rest ih => intro h t he; rw [splitOr.eq_2] at he; cases he; left; rfl
  | case3 c rest hne hrest ih =>
    intro h t he
    rw [splitOr.eq_3 c rest hne, hrest] at he
    cases he; right; rfl
  | case4 c rest hne h0 t0 hrest ih =>
    intro h t he
    rw [splitOr.eq_3 c rest hne, hrest] at he
    cases he; right; rfl

theorem splitOr_parts (l : List Char) :
    ∀ p ∈ splitOr l,
      p.count '-' ≤ l.count '-' ∧ containsList ['|', '|'] p = false := by
  induction l using splitOr.induct with
  | case1 =>
    intro p hp
    rw [splitOr.eq_1] at hp
    simp at hp
    subst hp
    simp [containsList]
  | case2 rest ih =>
    intro p hp
    rw [splitOr.eq_2] at hp
    rcases List.mem_cons.mp hp with h | h
    · subst h; simp [containsList]
    · have := ih p h
      refine ⟨le_trans this.1 ?_, this.2⟩
      simp [List.count_cons]
  | case3 c rest hne hrest ih =>
    intro p hp
    rw [splitOr.eq_3 c rest hne, hrest] at hp
    simp at hp
    subst hp
    constructor
    · simp [List.count_cons]
    · have hpre : (['|', '|'] : List Char).isPrefixOf [c] = false := by
        simp [List.isPrefixOf]
      simp [containsList, hpre]
  | case4 c rest hne h0 t0 hrest ih =>
    intro p hp
    rw [splitOr.eq_3 c rest hne, hrest] at hp
    rcases List.mem_cons.mp hp with h | h
    · subst h
      have ihh := ih h0 (by rw [hrest]; exact List.mem_cons_self _ _)
      constructor
      · simp only [List.count_cons]
        have := ihh.1
        split <;> omega
      · have hpre : (['|', '|'] : List Char).isPrefixOf (c :: h0) = false := by
          by_cases hc : c = '|'
          · subst hc
            rcases splitOr_head rest _ _ hrest with he | hh
            · subst he; simp [List.isPrefixOf]
            · cases h0 with
              | nil => simp [List.isPrefixOf]
              | cons x xs =>
                cases rest with
                | nil => simp [splitOr.eq_1] at hrest
                | cons r rs =>
                  have hx : x = r := by simpa using hh
                  have hr : ¬('|' = r) := fun h => hne rs rfl (by rw [h])
                  subst hx
                  simp [List.isPrefixOf, hr]
          · have hc2 : ¬('|' = c) := fun h => hc h.symm
            simp [List.isPrefixOf, hc2]
        have h1 : containsList ['|', '|'] (c :: h0)
            = ((['|', '|'] : List Char).isPrefixOf (c :: h0)
              || containsList ['|', '|'] h0) := rfl
        rw [h1, hpre, Bool.false_or]
        exact ihh.2
    · have := ih p (by rw [hrest]; exact List.mem_cons_of_mem _ h)
      refine ⟨le_trans this.1 ?_, this.2⟩
      simp only [List.count_cons]
      split <;> omega

theorem containsList_iff_isInfix {pat l : List Char} :
    containsList pat l = true ↔ pat <:+: l := by
  induction l with
  | nil =>
    simp [containsList, List.isEmpty_iff]
  | cons c rest ih =>
    simp only [containsList, Bool.or_eq_true, ih, List.infix_cons_iff,
      List.isPrefixOf_iff_prefix]

theorem trimList_isInfix (l : List Char) : trimList l <:+: l := by
  unfold trimList
  have h1 : l.dropWhile Char.isWhitespace <:+ l := List.dropWhile_suffix _
  have h2 : (l.dropWhile Char.isWhitespace).reverse.dropWhile Char.isWhitespace
      <:+ (l.dropWhile Char.isWhitespace).reverse := List.dropWhile_suffix _
  have h3 : ((l.dropWhile Char.isWhitespace).reverse.dropWhile
      Char.isWhitespace).reverse <+: l.dropWhile Char.isWhitespace := by
    rw [← List.reverse_suffix]
    simpa using h2
  exact h3.isInfix.trans h1.isInfix

theorem count_infix_le {l1 l2 : List Char} (h : l1 <:+: l2) (c : Char) :
    l1.count c ≤ l2.count c :=
  h.sublist.count_le c

theorem containsList_infix_false {pat l1 l2 : List Char} (h : l1 <:+: l2)
    (h2 : containsList pat l2 = false) : containsList pat l1 = false := by
  by_contra hne
  rw [Bool.not_eq_false, containsList_iff_isInfix] at hne
  rw [← Bool.not_eq_true, containsList_iff_isInfix] at h2
  exact h2 (hne.trans h)

theorem breakAtChar_eq (c : Char) :
    ∀ l a b, breakAtChar c l = some (a, b) → l = a ++ c :: b := by
  intro l
  induction l with
  | nil => intro a b h; simp [breakAtChar] at h
  | cons x xs ih =>
    intro a b h
    by_cases hx : x = c
    · subst hx
      simp [breakAtChar] at h
      obtain ⟨h1, h2⟩ := h
      subst h1; subst h2
      simp
    · simp only [breakAtChar, if_neg hx, Option.map_eq_some'] at h
      rcases h with ⟨p, hp, hpe⟩
      have h1 : a = x :: p.1 := congrArg Prod.fst hpe.symm
      have h2 : b = p.2 := congrArg Prod.snd hpe.symm
      subst h1; subst h2
      simp [ih _ _ hp]

/-- Termination measure for `resolve_version`: twice the hyphen count
plus one when the spec still contains `||`. -/
def specMeasure (s : String) : Nat :=
  2 * s.toList.count '-' + (if containsSub s "||" then 1 else 0)

theorem toList_mk (l : List Char) : (String.mk l).toList = l := rfl

theorem specMeasure_clause {spec : String} {part : List Char}
    (hp : part ∈ splitOr spec.toList) (hor : containsSub spec "||" = true) :
    specMeasure (trimStr (String.mk part)) < specMeasure spec := by
  have hparts := splitOr_parts spec.toList part hp
  have htrim : trimList part <:+: part := trimList_isInfix part
  have hcount : (trimList part).count '-' ≤ spec.toList.count '-' :=
    le_trans (count_infix_le htrim '-') hparts.1
  have hnoor : containsList ['|', '|'] (trimList part) = false :=
    containsList_infix_false htrim hparts.2
  have hor2 : containsList ['|', '|'] spec.toList = true := hor
  show 2 * (trimStr (String.mk part)).toList.count '-'
      + (if containsSub (trimStr (String.mk part)) "||" then 1 else 0)
      < 2 * spec.toList.count '-' + (if containsSub spec "||" then 1 else 0)
  have e1 : (trimStr (String.mk part)).toList = trimList part := rfl
  have e2 : containsSub (trimStr (String.mk part)) "||"
      = containsList ['|', '|'] (trimList part) := rfl
  have e3 : containsSub spec "||" = containsList ['|', '|'] spec.toList := rfl
  rw [e1, e2, e3, hnoor, hor2]
  rw [if_neg (by simp), if_pos rfl]
  omega

theorem toList_append (a b : String) : (a ++ b).toList = a.toList ++ b.toList := rfl

theorem specMeasure_hyphen {spec a b : String}
    (h : splitOnceChar spec '-' = some (a, b)) :
    specMeasure (">=" ++ trimStr a ++ " <=" ++ trimStr b) < specMeasure spec := by
  unfold splitOnceChar at h
  cases hb : breakAtChar '-' spec.toList with
  | none => rw [hb] at h; simp at h
  | some p =>
    rw [hb] at h
    simp only [Option.map_some', Option.some_inj] at h
    cases h
    have hsp : spec.toList = p.1 ++ '-' :: p.2 := breakAtChar_eq '-' _ _ _ hb
    have hta : (trimList p.1).count '-' ≤ p.1.count '-' :=
      count_infix_le (trimList_isInfix p.1) '-'
    have htb : (trimList p.2).count '-' ≤ p.2.count '-' :=
      count_infix_le (trimList_isInfix p.2) '-'
    show 2 * (">=" ++ trimStr (String.mk p.1)
          ++ " <=" ++ trimStr (String.mk p.2)).toList.count '-'
        + (if containsSub (">=" ++ trimStr (String.mk p.1)
            ++ " <=" ++ trimStr (String.mk p.2)) "||" then 1 else 0)
        < 2 * spec.toList.count '-' + (if containsSub spec "||" then 1 else 0)
    have hcat : (">=" ++ trimStr (String.mk p.1)
          ++ " <=" ++ trimStr (String.mk p.2)).toList
        = (">=" : String).toList ++ (trimStr (String.mk p.1)).toList
          ++ (" <=" : String).toList ++ (trimStr (String.mk p.2)).toList := by
      rw [toList_append, toList_append, toList_append]
    rw [hcat, hsp]
    have h3 : (trimStr (String.mk p.1)).toList = trimList p.1 := rfl
    have h4 : (trimStr (String.mk p.2)).toList = trimList p.2 := rfl
    have hz1 : ((">=" : String).toList).count '-' = 0 := by decide
    have hz2 : ((" <=" : String).toList).count '-' = 0 := by decide
    simp only [List.count_append, List.count_cons_self, hz1, hz2, h3, h4]
    have hflag1 : (if containsSub (">=" ++ trimStr (String.mk p.1)
        ++ " <=" ++ trimStr (String.mk p.2)) "||" then 1 else 0) ≤ 1 := by
      split <;> omega
    omega

/-- `install.rs` `resolve_version`, normalization steps 4-7 (wildcards
to `x`, one missing component appended as `.x`, a bare integer appended
as `.x`). -/
def normalize_spec (spec : String) : String :=
  let normalized := String.mk (spec.toList.map (fun c => if c = '*' then 'x' else c))
  if (SemVer.parse normalized).isSome then normalized
  else if normalized.toList.count '.' = 1 && !containsChar normalized 'x'
      && !containsChar normalized '^' && !containsChar normalized '~' then
    normalized ++ ".x"
  else if normalized.toList.count '.' = 0 && normalized.toList.all isDigit then
    normalized ++ ".x"
  else normalized

/-- The tail of `resolve_version` after the OR and hyphen branches:
parse the normalized spec as a requirement and take the first matching
candidate in list order; otherwise the first candidate whose rendering
starts with the original spec; otherwise the resolution error. -/
def resolve_after_ranges (all : List SemVer) (name spec : String) :
    Except String String :=
  let normalized := normalize_spec spec
  let reqStep : Option SemVer :=
    match VersionReq.parse normalized with
    | some req => all.find? (fun v => req.matches v)
    | none => none
  match reqStep with
  | some v => .ok v.toString
  | none =>
    match all.find? (fun v => strStartsWith v.toString spec) with
    | some v => .ok v.toString
    | none =>
      .error ("cannot resolve version spec '" ++ spec ++ "' for " ++ name)

/-- `install.rs` `resolve_version` as a function of the fetched version
list (the recursive calls fetch the same name again and hit the
process-wide cache, so they see the same list; see
`resolve_version_stateful`). An exact spec returns unchanged; a spec
containing `||` resolves each nonempty trimmed clause recursively and
keeps the strictly greatest success, falling through when none
succeeds; a spec with a hyphen and a space is rewritten to
`>=A <=B` and retried; the rest is `resolve_after_ranges`. -/
def resolve_version (all : List SemVer) (name spec : String) :
    Except String String :=
  if (SemVer.parse spec).isSome then .ok spec
  else
    let orBest : Option SemVer :=
      if hor : containsSub spec "||" then
        (splitOr spec.toList).attach.foldl (fun best pc =>
          let clause := trimStr (String.mk pc.1)
          if clause.isEmpty then best
          else
            match resolve_version all name clause with
            | .ok vs =>
              match SemVer.parse vs with
              | some ver =>
                if (match best with | some b => SemVer.gt ver b | none => true)
                then some ver else best
              | none => best
            | .error _ => best) none
      else none
    match orBest with
    | some v => .ok v.toString
    | none =>
      let hyphenResult : Option String :=
        if containsChar spec '-' && containsChar spec ' ' then
          match hsp : splitOnceChar spec '-' with
          | some (a, b) =>
            let a' := trimStr a
            let b' := trimStr b
            if !a'.isEmpty && !b'.isEmpty then
              match resolve_version all name (">=" ++ a' ++ " <=" ++ b') with
              | .ok v => some v
              | .error _ => none
            else none
          | none => none
        else none
      match hyphenResult with
      | some v => .ok v
      | none => resolve_after_ranges all name spec
termination_by specMeasure spec
decreasing_by
  · exact specMeasure_clause pc.2 hor
  · exact specMeasure_hyphen hsp

/-- The value one OR clause contributes to the best-version fold of
`resolve_version`: the clause is trimmed, skipped when empty, resolved
recursively, and its result parsed back to a version. -/
def clause_result (all : List SemVer) (name : String) (part : List Char) :
    Option SemVer :=
  let clause := trimStr (String.mk part)
  if clause.isEmpty then none
  else
    match resolve_version all name clause with
    | .ok vs => SemVer.parse vs
    | .error _ => none

/-- `resolve_version` with the version-cache state explicit, as the
process runs it: the exact-spec path returns before any fetch
(`fetch_all_versions` is consulted otherwise, and the cache keeps every
recursive fetch of the same name equal to the first). -/
def resolve_version_stateful (fetchRaw : String → Except String (List String))
    (cache : VersionCache) (name spec : String) :
    Except String String × VersionCache × Bool :=
  if (SemVer.parse spec).isSome then (.ok spec, cache, false)
  else
    match fetch_all_versions fetchRaw cache name with
    | (.error e, cache', fetched) => (.error e, cache', fetched)
    | (.ok all, cache', fetched) => (resolve_version all name spec, cache', fetched)

/-! ## ops.rs: install --locked -/

/-- One loop step of `ops::install_locked`: pick the base tool (manifest
entry re-pinned to the locked version, else the known-tool catalog via
`build_known_tool`, modelled by `knownBuild name version`), then choose
the download URL from the `sources` matrix under the host key, falling
back to the entry's rendered `source`. -/
def install_locked_tool (cfgTools : List Tool)
    (knownBuild : String → String → Except String Tool)
    (os arch : String) (name : String) (lt : LockedEntry) : Except String Tool :=
  let base : Except String Tool :=
    match cfgTools.find? (fun t => t.name = name) with
    | some t => .ok { t with version := lt.version }
    | none => knownBuild name lt.version
  match base with
  | .error e => .error e
  | .ok tool =>
    let platform_key := os ++ "-" ++ arch
    let src :=
      match lt.sources with
      | some srcs =>
        match alistGet srcs platform_key with
        | some url => url
        | none => lt.source
      | none => lt.source
    .ok { tool with source := src }

/-! ## Concrete fixtures used by witnesses and counterexamples -/

/-- The URL written into one cell of the `sources` matrix. -/
def matrix_url (template exact o a : String) : String :=
  strReplace (strReplace (strReplace template "{version}" exact) "{os}" o)
    "{arch}" a

/-- The terraform catalog template. -/
def tfTemplate : String :=
  "https://releases.hashicorp.com/terraform/{version}/terraform_{version}_{os}_{arch}.zip"

/-- A manifest tool pinned to an exact version. -/
def terraformTool : Tool :=
  { name := "terraform", version := "1.7.5", kind := .archive,
    source := tfTemplate, binary := some "terraform" }

/-- A manifest tool whose version spec is the non-semver, non-range
string `latest`. -/
def latestTool : Tool :=
  { name := "gh", version := "latest", kind := .archive, source := "" }

/-- A lock whose `gh` entry also carries the string `latest`. -/
def latestLock : LockFile :=
  { generated := "", tools := [("gh", { version := "latest", source := "" })] }

/-- A lock for `terraformTool` at the same exact version. -/
def terraformLock : LockFile :=
  { generated := "",
    tools := [("terraform", { version := "1.7.5", source := "" })] }

/-- A manifest tool with a caret range spec. -/
def helmTool : Tool :=
  { name := "helm", version := "^3.14.0", kind := .archive,
    source := "https://get.helm.sh/helm-v{version}-{os}-{arch}.tar.gz" }

/-- An archive tool with no explicit `binary` (entry name `tool`). -/
def plainTool : Tool :=
  { name := "tool", version := "1.0.0", kind := .archive, source := "" }

/-- A manifest entry for the `--locked` fixtures. -/
def kubectlTool : Tool :=
  { name := "kubectl", version := "1.30.0", kind := .direct,
    source := "https://dl.k8s.io/release/v{version}/bin/{os}/{arch}/kubectl" }

/-- A lock entry whose `sources` matrix has only the writer's key. -/
def kubectlEntry : LockedEntry :=
  { version := "1.30.2",
    source := "https://dl.k8s.io/release/v1.30.2/bin/linux/amd64/kubectl",
    sources := some [("linux-amd64",
      "https://dl.k8s.io/release/v1.30.2/bin/linux/amd64/kubectl")] }

/-- A fetched helm version list, already sorted descending. -/
def versionsW : List SemVer :=
  [⟨3, 14, 3, [], []⟩, ⟨3, 14, 2, [], []⟩, ⟨3, 13, 9, [], []⟩]

/-! ## Helper lemmas shared by the claim theorems -/

theorem foldl_overwrite (m : String → Bool) :
    ∀ (entries : List (String × String)) (acc : Option String),
      entries.foldl (fun acc e => if m e.1 then some e.2 else acc) acc
        = match (entries.filter (fun e => m e.1)).getLast? with
          | some e => some e.2
          | none => acc := by
  intro entries
  induction entries with
  | nil => intro acc; rfl
  | cons e rest ih =>
    intro acc
    rw [List.foldl_cons, ih]
    by_cases hm : m e.1
    · simp only [List.filter_cons, hm, if_pos]
      cases hrest : (rest.filter (fun e => m e.1)) with
      | nil => simp
      | cons f fs =>
        cases hl : (f :: fs).getLast? with
        | none => simp at hl
        | some g => simp [hrest, hl]
    · simp only [List.filter_cons, hm, if_neg]
      simp

theorem extract_matching_last (m : String → Bool)
    (entries : List (String × String)) :
    extract_matching m entries
      = ((entries.filter (fun e => m e.1)).getLast?).map Prod.snd := by
  unfold extract_matching
  rw [foldl_overwrite]
  cases (entries.filter (fun e => m e.1)).getLast? <;> rfl

/-! ## C3: the cross-platform sources matrix of a lock entry -/

/-- C3 (confirmed): `to_locked_entry` writes a `sources` map exactly when the effective template contains both
`{os}` and `{arch}`, and then it holds exactly the six keys
`{linux,darwin,windows} × {amd64,arm64}`, each mapped to the template
with version, os and arch substituted; otherwise the map is absent. -/
theorem to_locked_entry_matrix (envOS envARCH name exact : String)
    (req : Option String) (rendered template : String)
    (sha dig : Option String) :
    ((containsSub template "{os}" && containsSub template "{arch}") = true →
      (to_locked_entry envOS envARCH name exact req rendered template
        sha dig).2.sources
        = some [("linux-amd64", matrix_url template exact "linux" "amd64"),
                ("linux-arm64", matrix_url template exact "linux" "arm64"),
                ("darwin-amd64", matrix_url template exact "darwin" "amd64"),
                ("darwin-arm64", matrix_url template exact "darwin" "arm64"),
                ("windows-amd64", matrix_url template exact "windows" "amd64"),
                ("windows-arm64", matrix_url template exact "windows" "arm64")])
    ∧ ((containsSub template "{os}" && containsSub template "{arch}") = false →
      (to_locked_entry envOS envARCH name exact req rendered template
        sha dig).2.sources = none) := by
  constructor <;> intro h <;> simp [to_locked_entry, matrix_url, h]

/-- C3 witness: the terraform template contains both placeholders and
its lock entry carries the full six-key matrix. -/
theorem to_locked_entry_matrix_witness :
    ((containsSub tfTemplate "{os}" && containsSub tfTemplate "{arch}") = true)
    ∧ (to_locked_entry "linux" "x86_64" "terraform" "1.7.5" none "" tfTemplate
        none none).2.sources
      = some [("linux-amd64", matrix_url tfTemplate "1.7.5" "linux" "amd64"),
              ("linux-arm64", matrix_url tfTemplate "1.7.5" "linux" "arm64"),
              ("darwin-amd64", matrix_url tfTemplate "1.7.5" "darwin" "amd64"),
              ("darwin-arm64", matrix_url tfTemplate "1.7.5" "darwin" "arm64"),
              ("windows-amd64", matrix_url tfTemplate "1.7.5" "windows" "amd64"),
              ("windows-arm64", matrix_url tfTemplate "1.7.5" "windows" "arm64")] :=
  ⟨by decide,
   (to_locked_entry_matrix "linux" "x86_64" "terraform" "1.7.5" none "" tfTemplate
     none none).1 (by decide)⟩

/-! ## C4: how the lock file is saved -/

/-- C4 counterexample: `LockFile::save` does not write a temporary file
and rename it over the lock path; its operation list is never of that
two-step shape. -/
theorem lockfile_save_not_atomic :
    ¬ (∃ tmp contents, tmp ≠ "tlk.lock" ∧
        LockFile.saveOps (fun _ => "serialized") "0.0.0"
          { generated := "", tools := [] } "tlk.lock"
          = [FsOp.write tmp contents, FsOp.rename tmp "tlk.lock"]) := by
  rintro ⟨tmp, contents, hne, h⟩
  simp [LockFile.saveOps] at h

/-- C4 amended: every save is one direct `fs::write` of the serialized
normalized lock straight to the lock path (no temporary file, no
rename; an interrupted write can leave a partial file and clobber the
previous lock). -/
theorem lockfile_save_single_write (serialize : LockFile → String)
    (tlkVersion : String) (lf : LockFile) (path : String) :
    LockFile.saveOps serialize tlkVersion lf path
      = [FsOp.write path (serialize (LockFile.saveNormalized tlkVersion lf))] :=
  rfl

/-! ## C5: which archive entry ends up installed -/

/-- C5 counterexample: with two entries both matching the candidates,
the first match's bytes are overwritten by the later match, so the
installed bytes are not the first matching entry's. -/
theorem install_archive_first_match_counterexample :
    install_archive "linux" "amd64" plainTool "https://example.com/a.zip"
      [("tool", "AAA"), ("dir/tool", "BBB")] = .ok "BBB"
    ∧ List.find? (fun e => zip_entry_matches
        (candidate_archive_entry_names "linux" "amd64" "tool") e.1)
        [("tool", "AAA"), ("dir/tool", "BBB")] = some ("tool", "AAA")
    ∧ ("BBB" : String) ≠ "AAA" :=
  ⟨by decide, by decide, by decide⟩

/-- C5 amended: entries are matched against the platform candidates by
suffix (component suffix in the tar branch, string suffix in the zip
branch) and the LAST matching entry's bytes end up installed (every
match overwrites the target file); no match fails with "did not find
expected binary ... inside archive for ..."; any other URL suffix fails
with "unsupported archive type". -/
theorem install_archive_selection (os arch : String) (t : Tool) (url : String)
    (entries : List (String × String)) :
    (((strEndsWith url ".tar.gz" || strEndsWith url ".tgz") = true →
      install_archive os arch t url entries
        = match (entries.filter (fun e => tar_entry_matches
            (candidate_archive_entry_names os arch (t.binary.getD t.name))
            e.1)).getLast? with
          | some e => .ok e.2
          | none => .error ("did not find expected binary '"
              ++ t.binary.getD t.name ++ "' inside archive for " ++ t.name))
    ∧ ((strEndsWith url ".tar.gz" || strEndsWith url ".tgz") = false →
      strEndsWith url ".zip" = true →
      install_archive os arch t url entries
        = match (entries.filter (fun e => zip_entry_matches
            (candidate_archive_entry_names os arch (t.binary.getD t.name))
            e.1)).getLast? with
          | some e => .ok e.2
          | none => .error ("did not find expected binary '"
              ++ t.binary.getD t.name ++ "' inside archive for " ++ t.name))
    ∧ ((strEndsWith url ".tar.gz" || strEndsWith url ".tgz") = false →
      strEndsWith url ".zip" = false →
      install_archive os arch t url entries
        = .error ("unsupported archive type for " ++ url))) := by
  refine ⟨fun h1 => ?_, fun h1 h2 => ?_, fun h1 h2 => ?_⟩
  · unfold install_archive
    rw [if_pos h1, extract_matching_last]
    cases (entries.filter _).getLast? <;> rfl
  · unfold install_archive
    rw [if_neg (by simp [h1]), if_pos h2, extract_matching_last]
    cases (entries.filter _).getLast? <;> rfl
  · unfold install_archive
    rw [if_neg (by simp [h1]), if_neg (by simp [h2])]

/-- C5 witness: a zip archive with one matching nested entry installs
that entry's bytes. -/
theorem install_archive_selection_witness :
    install_archive "linux" "amd64" plainTool "https://example.com/b.zip"
      [("pkg/docs/readme", "DOC"), ("pkg/bin/tool", "BIN")] = .ok "BIN" := by
  have h := (install_archive_selection "linux" "amd64" plainTool
    "https://example.com/b.zip"
    [("pkg/docs/readme", "DOC"), ("pkg/bin/tool", "BIN")]).2.1
    (by decide) (by decide)
  rw [h]
  decide

/-! ## C6: the skip-if-installed check -/

/-- C6 counterexample: with helm 3.14.3 on disk and the range spec
`^3.14.0` in the manifest, the skip does not fire and a second install
downloads again (the claim asserts the skip applies to range specs). -/
theorem install_skip_range_counterexample :
    extract_version_from_binary "helm v3.14.3 linux-amd64" = "3.14.3"
    ∧ install_tool_step (some "3.14.3") helmTool = .downloadArchive
    ∧ InstallStep.downloadArchive ≠ InstallStep.skip :=
  ⟨by decide, by decide, by decide⟩

/-- C6 amended: `install_tool` skips (performs no download) exactly when
`find_installed_version` succeeds with a string equal to `tool.version`;
for an exact already-installed version the second install downloads
nothing, while a range spec never string-equals the installed version,
so the skip never applies to it. -/
theorem install_tool_skip_iff (fi : Option String) (t : Tool) :
    install_tool_step fi t = .skip ↔ fi = some t.version := by
  unfold install_tool_step
  cases fi with
  | none => cases t.kind <;> simp
  | some v =>
    by_cases h : v = t.version
    · simp [h]
    · cases t.kind <;> simp [h]

/-! ## C7: the platform field of a written lock entry -/

/-- C7 counterexample: on a linux/amd64 host (`std::env::consts` gives
`linux` / `x86_64`), the written entry's platform is `linux-x86_64`,
not the canonical `linux-amd64` the claim states. -/
theorem locked_entry_platform_counterexample :
    (to_locked_entry "linux" "x86_64" "terraform" "1.7.5" none "" tfTemplate
      none none).2.platform = some "linux-x86_64"
    ∧ (to_locked_entry "linux" "x86_64" "terraform" "1.7.5" none "" tfTemplate
      none none).2.platform ≠ some "linux-amd64" :=
  ⟨by decide, by decide⟩

/-- C7 amended: the platform field is the raw
`std::env::consts::OS ++ "-" ++ std::env::consts::ARCH` of the writing
host (`linux-x86_64` on linux/amd64, `macos-aarch64` on an arm mac),
not the canonical detect_os/detect_arch names used for the `sources`
keys. -/
theorem locked_entry_platform_raw (envOS envARCH name exact : String)
    (req : Option String) (rendered template : String)
    (sha dig : Option String) :
    (to_locked_entry envOS envARCH name exact req rendered template
      sha dig).2.platform = some (envOS ++ "-" ++ envARCH) := by
  simp [to_locked_entry]

/-! ## C8: aggregation of bulk-install failures -/

/-- C8 counterexample: a bulk install over a manifest with exactly one
tool takes the sequential path, which swallows the per-tool failure and
returns success instead of the claimed "1 tool(s) failed" error. -/
theorem install_all_single_failure_counterexample :
    install_all (fun _ => .error "download failed 404") [terraformTool] = .ok ()
    ∧ (Except.ok () : Except String Unit) ≠ .error "1 tool(s) failed" :=
  ⟨by decide, by decide⟩

/-- C8 amended: for manifests with at least two tools the parallel path
aggregates per-tool failures into "{k} tool(s) failed"; for manifests
with at most one tool `install_all` goes through the sequential path and
returns success regardless of per-tool failures. -/
theorem install_all_aggregation :
    (∀ (outcome : Tool → Except String Unit) (cfg : List Tool),
      2 ≤ cfg.length →
      ((install_tools_parallel outcome cfg).filter (fun r =>
          match r.2 with | .error _ => true | .ok _ => false)) ≠ [] →
      install_all outcome cfg
        = .error (toString ((install_tools_parallel outcome cfg).filter (fun r =>
            match r.2 with | .error _ => true | .ok _ => false)).length
          ++ " tool(s) failed"))
    ∧ (∀ (outcome : Tool → Except String Unit) (cfg : List Tool),
      cfg.length ≤ 1 → install_all outcome cfg = .ok ()) := by
  constructor
  · intro outcome cfg h2 hne
    unfold install_all
    rw [if_neg (by omega)]
    unfold summarize_parallel
    rw [if_neg (by simpa [List.isEmpty_iff] using hne)]
  · intro outcome cfg h1
    unfold install_all
    rw [if_pos h1]
    rfl

/-- C8 witness: two tools, one failing, aggregate to "1 tool(s)
failed"; a single-tool manifest returns success even when its install
fails. -/
theorem install_all_aggregation_witness :
    install_all (fun t => if t.name = "terraform"
        then .error "download failed 404" else .ok ())
      [terraformTool, helmTool] = .error "1 tool(s) failed"
    ∧ install_all (fun _ => .error "download failed 404") [helmTool] = .ok () := by
  constructor
  · have h := install_all_aggregation.1
      (fun t => if t.name = "terraform"
        then .error "download failed 404" else .ok ())
      [terraformTool, helmTool] (by decide) (by decide)
    rw [h]
    decide
  · exact install_all_aggregation.2 (fun _ => .error "download failed 404")
      [helmTool] (by decide)

/-! ## C10: source selection under install --locked -/

/-- C10: when the lock entry's `sources` matrix is absent or has no key
for the current host, `install_locked` silently falls back to the
entry's rendered `source` URL (no error for the platform mismatch); the
tool otherwise keeps the manifest entry's fields with the locked
version. -/
theorem install_locked_source_fallback (cfgTools : List Tool)
    (knownBuild : String → String → Except String Tool) (os arch name : String)
    (lt : LockedEntry) (t : Tool)
    (hfind : cfgTools.find? (fun t => t.name = name) = some t)
    (hmiss : lt.sources = none
      ∨ ∃ srcs, lt.sources = some srcs
          ∧ alistGet srcs (os ++ "-" ++ arch) = none) :
    install_locked_tool cfgTools knownBuild os arch name lt
      = .ok { t with version := lt.version, source := lt.source } := by
  unfold install_locked_tool
  rw [hfind]
  rcases hmiss with h | ⟨srcs, h1, h2⟩
  · simp [h]
  · simp [h1, h2]

/-- C10 witness: a lock written on linux/amd64 installed with
`--locked` on a darwin/arm64 host falls back to the linux URL. -/
theorem install_locked_source_fallback_witness :
    install_locked_tool [kubectlTool] (fun _ _ => .error "unknown known tool")
      "darwin" "arm64" "kubectl" kubectlEntry
      = .ok { kubectlTool with
              version := kubectlEntry.version
              source := kubectlEntry.source } :=
  install_locked_source_fallback [kubectlTool]
    (fun _ _ => .error "unknown known tool") "darwin" "arm64" "kubectl"
    kubectlEntry kubectlTool (by decide)
    (Or.inr ⟨_, rfl, by decide⟩)

/-! ## C1: what a passing verify guarantees -/

/-- C1 counterexample: verify passes for the manifest/lock pair whose
`gh` spec is the string `latest` (locked as `latest` too, as
`write_lockfile` records when it cannot normalize), yet `latest` is
neither exact semver with string equality under that reading, nor a
spec whose range satisfaction check succeeds: the code's third case
(neither exact nor range-shaped, compared by string equality) is
missing from the claim's dichotomy. -/
theorem verify_satisfaction_counterexample :
    verify_lockfile "linux" "amd64" id (fun _ => none) [latestTool]
      (some latestLock) = .ok ()
    ∧ ¬ (((SemVer.parse "latest").isSome = true ∧ ("latest" : String) = "latest")
        ∨ ((SemVer.parse "latest").isSome = false
            ∧ range_satisfies "latest" "latest" = true)) := by
  refine ⟨by decide, ?_⟩
  rintro (⟨h, _⟩ | ⟨_, h⟩) <;> revert h <;> decide

/-- C1 amended: if `verify_lockfile` returns success, then every
manifest tool has a lock entry under its name, and the locked version
satisfies the spec under the resolver's normalization when the spec is
range-shaped (`is_range`: not exact semver and containing a range
metacharacter), while otherwise (exact semver, or a plain string such
as `latest`) the locked version is string-equal to the spec. -/
theorem verify_lockfile_satisfaction (os arch : String)
    (adjust : String → String) (digestOf : Tool → Option String)
    (cfg : List Tool) (lf : LockFile)
    (hok : verify_lockfile os arch adjust digestOf cfg (some lf) = .ok ()) :
    ∀ t ∈ cfg, ∃ lt, alistGet lf.tools t.name = some lt ∧
      (if is_range t.version = true
       then range_satisfies t.version lt.version = true
       else lt.version = t.version) := by
  intro t ht
  have hok2 : (if (cfg.flatMap (verify_tool_errors os arch adjust
        digestOf lf)).isEmpty = true
      then (Except.ok () : Except String Unit)
      else Except.error ("lock verification failed:\n - "
        ++ String.intercalate "\n - "
          (cfg.flatMap (verify_tool_errors os arch adjust digestOf lf))))
      = Except.ok () := hok
  by_cases he : (cfg.flatMap (verify_tool_errors os arch adjust
      digestOf lf)).isEmpty = true
  case neg =>
    rw [if_neg he] at hok2
    exact absurd hok2 (by simp)
  case pos =>
    have hnil : cfg.flatMap (verify_tool_errors os arch adjust digestOf lf) = [] := by
      simpa [List.isEmpty_iff] using he
    have htool : verify_tool_errors os arch adjust digestOf lf t = [] := by
      by_contra hne
      obtain ⟨e, hehd⟩ : ∃ e, e ∈ verify_tool_errors os arch adjust digestOf lf t :=
        List.exists_mem_of_ne_nil _ hne
      have hmem : e ∈ cfg.flatMap (verify_tool_errors os arch adjust digestOf lf) :=
        List.mem_flatMap.mpr ⟨t, ht, hehd⟩
      rw [hnil] at hmem
      exact absurd hmem (List.not_mem_nil e)
    unfold verify_tool_errors at htool
    cases hget : alistGet lf.tools t.name with
    | none =>
      rw [hget] at htool
      exact absurd htool (by simp)
    | some lt =>
      rw [hget] at htool
      refine ⟨lt, rfl, ?_⟩
      have h1 := (List.append_eq_nil.mp
        ((List.append_eq_nil.mp ((List.append_eq_nil.mp htool).1)).1)).1
      by_cases hr : is_range t.version = true
      · rw [if_pos hr]
        rw [if_pos hr] at h1
        by_cases hs : range_satisfies t.version lt.version = true
        · exact hs
        · rw [if_pos (by simp [hs])] at h1
          exact absurd h1 (by simp)
      · rw [if_neg hr]
        rw [if_neg hr] at h1
        by_cases hv : lt.version = t.version
        · exact hv
        · rw [if_pos hv] at h1
          exact absurd h1 (by simp)

/-- C1 witness: verify passes for terraform pinned at 1.7.5, and the
lock entry it guarantees carries the equal version string. -/
theorem verify_lockfile_satisfaction_witness :
    verify_lockfile "linux" "amd64" id (fun _ => none) [terraformTool]
      (some terraformLock) = .ok ()
    ∧ (∃ lt, alistGet terraformLock.tools terraformTool.name = some lt ∧
      (if is_range terraformTool.version = true
       then range_satisfies terraformTool.version lt.version = true
       else lt.version = terraformTool.version)) :=
  ⟨by decide,
   verify_lockfile_satisfaction "linux" "amd64" id (fun _ => none)
     [terraformTool] terraformLock (by decide) terraformTool
     (List.mem_cons_self _ _)⟩

/-! ## C9: memoization makes resolution deterministic in-process -/

theorem alistGet_cons_self {α : Type} (k : String) (v : α)
    (rest : List (String × α)) : alistGet ((k, v) :: rest) k = some v := by
  simp [alistGet, List.find?]

/-- C9: if a resolve succeeds, a second resolve of the same (name, spec)
in the same process returns the same version, leaves the cache
unchanged, and consults no release index at all — whatever the upstream
would answer the second time (`f2` is universally quantified), because
the per-name list was memoized by the first call (or no list was needed
for an exact spec). -/
theorem resolver_cache_invariance (f1 : String → Except String (List String))
    (cache : VersionCache) (name spec v : String) (st1 : VersionCache)
    (fl : Bool)
    (h : resolve_version_stateful f1 cache name spec = (.ok v, st1, fl))
    (f2 : String → Except String (List String)) :
    resolve_version_stateful f2 st1 name spec = (.ok v, st1, false) := by
  unfold resolve_version_stateful at h ⊢
  by_cases hex : (SemVer.parse spec).isSome = true
  · rw [if_pos hex] at h ⊢
    simp only [Prod.mk.injEq, Except.ok.injEq] at h
    obtain ⟨hv, hst, _⟩ := h
    rw [hv]
  · rw [if_neg hex] at h ⊢
    rcases hf : fetch_all_versions f1 cache name with ⟨r, st', fet⟩
    rw [hf] at h
    cases r with
    | error e => simp at h
    | ok all =>
      simp only [Prod.mk.injEq] at h
      obtain ⟨hres, hst, hfl⟩ := h
      have hhit : alistGet st1.entries name = some all := by
        rw [← hst]
        unfold fetch_all_versions at hf
        cases hc : alistGet cache.entries name with
        | some l =>
          rw [hc] at hf
          simp only [Prod.mk.injEq, Except.ok.injEq] at hf
          obtain ⟨hr, hcs, _⟩ := hf
          rw [← hcs, hc, hr]
        | none =>
          rw [hc] at hf
          cases hraw : f1 name with
          | error e =>
            rw [hraw] at hf
            simp at hf
          | ok raw =>
            rw [hraw] at hf
            simp only [Prod.mk.injEq, Except.ok.injEq] at hf
            obtain ⟨hr, hcs, _⟩ := hf
            rw [← hcs]
            show alistGet ((name, sortDesc (raw.filterMap SemVer.parse))
              :: cache.entries) name = some all
            rw [alistGet_cons_self, hr]
      have hhit2 : alistGet st'.entries name = some all := by
        rw [hst]; exact hhit
      rw [← hst]
      unfold fetch_all_versions
      rw [hhit2]
      show (resolve_version all name spec, st', false)
        = (Except.ok v, st', false)
      rw [hres]

/-- C9 witness: an exact spec resolves without touching the cache or the
network, and resolves identically a second time. -/
theorem resolver_cache_invariance_witness :
    resolve_version_stateful (fun _ => .error "transport failure") ⟨[]⟩
      "kubectl" "1.30.2" = (.ok "1.30.2", ⟨[]⟩, false)
    ∧ resolve_version_stateful (fun _ => .ok ["9.9.9"]) ⟨[]⟩
      "kubectl" "1.30.2" = (.ok "1.30.2", ⟨[]⟩, false) :=
  ⟨by decide,
   resolver_cache_invariance (fun _ => .error "transport failure") ⟨[]⟩
     "kubectl" "1.30.2" "1.30.2" ⟨[]⟩ false (by decide)
     (fun _ => .ok ["9.9.9"])⟩

/-! ## C2: order facts about the embedded version comparison -/

theorem swap_match (o1 o2 : Ordering) :
    (match o1 with | .eq => o2 | o => o).swap
      = (match o1.swap with | .eq => o2.swap | o => o) := by
  cases o1 <;> rfl

theorem cmpPreIdent_swap (a b : String) :
    (cmpPreIdent a b).swap = cmpPreIdent b a := by
  unfold cmpPreIdent
  cases ha : identIsNum a <;> cases hb : identIsNum b <;> simp <;>
    first
      | rfl
      | exact Batteries.OrientedCmp.symm a b
      | exact Nat.compare_swap _ _

theorem cmpBuildIdent_swap (a b : String) :
    (cmpBuildIdent a b).swap = cmpBuildIdent b a := by
  unfold cmpBuildIdent
  cases ha : identIsNum a <;> cases hb : identIsNum b <;> simp <;>
    first
      | rfl
      | exact Batteries.OrientedCmp.symm a b
      | rw [swap_match, Nat.compare_swap, Nat.compare_swap]

theorem cmpIdList_swap (f : String → String → Ordering)
    (hf : ∀ a b, (f a b).swap = f b a) :
    ∀ l1 l2, (cmpIdList f l1 l2).swap = cmpIdList f l2 l1 := by
  intro l1
  induction l1 with
  | nil => intro l2; cases l2 <;> rfl
  | cons a as ih =>
    intro l2
    cases l2 with
    | nil => rfl
    | cons b bs =>
      show (match f a b with | .eq => cmpIdList f as bs | o => o).swap
        = (match f b a with | .eq => cmpIdList f bs as | o => o)
      rw [swap_match, hf, ih]

theorem cmpPre_swap (a b : List String) : (cmpPre a b).swap = cmpPre b a := by
  cases a <;> cases b <;>
    first
      | rfl
      | exact cmpIdList_swap cmpPreIdent cmpPreIdent_swap _ _

theorem cmpBuild_swap (a b : List String) :
    (cmpBuild a b).swap = cmpBuild b a := by
  cases a <;> cases b <;>
    first
      | rfl
      | exact cmpIdList_swap cmpBuildIdent cmpBuildIdent_swap _ _

theorem semver_cmp_swap (a b : SemVer) :
    (SemVer.cmp a b).swap = SemVer.cmp b a := by
  unfold SemVer.cmp
  rw [swap_match, swap_match, swap_match, swap_match,
    Nat.compare_swap, Nat.compare_swap, Nat.compare_swap,
    cmpPre_swap, cmpBuild_swap]

theorem cmpPreIdent_refl (a : String) : cmpPreIdent a a = .eq := by
  unfold cmpPreIdent
  cases h : identIsNum a <;> simp
  · exact Batteries.OrientedCmp.cmp_refl
  · exact Nat.compare_eq_eq.mpr rfl

theorem cmpIdList_refl (f : String → String → Ordering)
    (hf : ∀ a, f a a = .eq) : ∀ l, cmpIdList f l l = .eq := by
  intro l
  induction l with
  | nil => rfl
  | cons a as ih =>
    show (match f a a with | .eq => cmpIdList f as as | o => o) = .eq
    rw [hf, ih]

theorem cmpPre_refl (a : List String) : cmpPre a a = .eq := by
  cases a with
  | nil => rfl
  | cons x xs => exact cmpIdList_refl cmpPreIdent cmpPreIdent_refl _

theorem cmpBuildIdent_refl (a : String) : cmpBuildIdent a a = .eq := by
  unfold cmpBuildIdent
  cases h : identIsNum a <;> simp
  · exact Batteries.OrientedCmp.cmp_refl
  · rw [Nat.compare_eq_eq.mpr rfl]
    exact Nat.compare_eq_eq.mpr rfl

theorem cmpBuild_refl (a : List String) : cmpBuild a a = .eq := by
  cases a with
  | nil => rfl
  | cons x xs => exact cmpIdList_refl cmpBuildIdent cmpBuildIdent_refl _

theorem semver_cmp_refl (a : SemVer) : SemVer.cmp a a = .eq := by
  unfold SemVer.cmp
  rw [Nat.compare_eq_eq.mpr rfl, Nat.compare_eq_eq.mpr rfl,
    Nat.compare_eq_eq.mpr rfl, cmpPre_refl, cmpBuild_refl]

theorem semver_gt_irrefl (a : SemVer) : SemVer.gt a a = false := by
  simp [SemVer.gt, semver_cmp_refl]

theorem semver_lt_gt {a b : SemVer} (h : SemVer.lt a b = true) :
    SemVer.gt b a = true := by
  simp only [SemVer.lt, decide_eq_true_eq] at h
  simp only [SemVer.gt, decide_eq_true_eq]
  rw [← semver_cmp_swap, h]
  rfl

theorem semver_lt_not_gt {a b : SemVer} (h : SemVer.lt a b = true) :
    SemVer.gt a b = false := by
  simp only [SemVer.lt, decide_eq_true_eq] at h
  simp [SemVer.gt, h]

theorem semver_lt_ne {a b : SemVer} (h : SemVer.lt a b = true) : a ≠ b := by
  intro he
  rw [he] at h
  simp only [SemVer.lt, decide_eq_true_eq, semver_cmp_refl] at h
  exact Ordering.noConfusion h

/-- The best-so-far fold of the OR branch returns the unique strict
maximum of the successful clause results (the code keeps a running best
and replaces it only on a strictly greater version). -/
theorem or_fold_unique_max {α : Type} (g : α → Option SemVer) (v0 : SemVer) :
    ∀ (l : List α) (acc : Option SemVer),
      (∀ x ∈ l, ∀ r, g x = some r → r = v0 ∨ SemVer.lt r v0 = true) →
      (acc = none ∨ acc = some v0
        ∨ ∃ b, acc = some b ∧ SemVer.lt b v0 = true) →
      ((∃ x ∈ l, g x = some v0) ∨ acc = some v0) →
      l.foldl (fun best x =>
        match g x with
        | some ver =>
          if best.elim true (fun b => SemVer.gt ver b)
          then some ver else best
        | none => best) acc = some v0 := by
  intro l
  induction l with
  | nil =>
    intro acc hbound hacc hhit
    rcases hhit with ⟨x, hx, _⟩ | h
    · exact absurd hx (List.not_mem_nil x)
    · simpa using h
  | cons x xs ih =>
    intro acc hbound hacc hhit
    rw [List.foldl_cons]
    cases hgx : g x with
    | none =>
      show List.foldl _ acc xs = some v0
      apply ih _ (fun y hy => hbound y (List.mem_cons_of_mem x hy)) hacc
      rcases hhit with ⟨y, hy, hgy⟩ | h
      · rcases List.mem_cons.mp hy with hyx | hyxs
        · rw [hyx] at hgy
          rw [hgy] at hgx
          exact absurd hgx (by simp)
        · exact Or.inl ⟨y, hyxs, hgy⟩
      · exact Or.inr h
    | some r =>
      show List.foldl _
        (if acc.elim true (fun b => SemVer.gt r b) = true
         then some r else acc) xs = some v0
      rcases hbound x (List.mem_cons_self x xs) r hgx with hr0 | hlt
      · have hstep : (if acc.elim true (fun b => SemVer.gt r b) = true
            then some r else acc) = some r := by
          rcases hacc with h | h | ⟨b, hb, hbl⟩
          · rw [h]; simp
          · rw [h, hr0]
            by_cases hgg : SemVer.gt r v0 = true
            · simp [hgg]
            · simp [hgg, hr0]
          · rw [hb, hr0]
            simp [semver_lt_gt hbl]
        rw [hstep, hr0]
        exact ih _ (fun y hy => hbound y (List.mem_cons_of_mem x hy))
          (Or.inr (Or.inl rfl)) (Or.inr rfl)
      · have hacc2 : (if acc.elim true (fun b => SemVer.gt r b) = true
            then some r else acc) = acc
            ∨ (if acc.elim true (fun b => SemVer.gt r b) = true
            then some r else acc) = some r := by
          rcases hacc with h | h | ⟨b, hb, hbl⟩
          · rw [h]; right; simp
          · rw [h]; left; simp [semver_lt_not_gt hlt]
          · rw [hb]
            by_cases hc : SemVer.gt r b = true
            · right; simp [hc]
            · left; simp [hc]
        have hhit2 : (∃ y ∈ xs, g y = some v0)
            ∨ (if acc.elim true (fun b => SemVer.gt r b) = true
            then some r else acc) = some v0 := by
          rcases hhit with ⟨y, hy, hgy⟩ | h
          · rcases List.mem_cons.mp hy with hyx | hyxs
            · rw [hyx] at hgy
              rw [hgy] at hgx
              have hrv : v0 = r := Option.some.inj hgx
              exact absurd hrv.symm (semver_lt_ne hlt)
            · exact Or.inl ⟨y, hyxs, hgy⟩
          · rcases hacc2 with h2 | h2
            · rw [h2]; exact Or.inr h
            · have hcond : ((some v0 : Option SemVer).elim true
                  fun b => SemVer.gt r b) = false := semver_lt_not_gt hlt
              rw [h, hcond] at h2
              simp at h2
              exact absurd h2.symm (semver_lt_ne hlt)
        apply ih _ (fun y hy => hbound y (List.mem_cons_of_mem x hy))
        · rcases hacc2 with h2 | h2 <;> rw [h2]
          · exact hacc
          · exact Or.inr (Or.inr ⟨r, rfl, hlt⟩)
        · exact hhit2

/-- On a strictly descending list, the first `find?` hit is the
greatest match. -/
theorem find_first_greatest {p : SemVer → Bool} :
    ∀ (all : List SemVer),
      all.Pairwise (fun a b => SemVer.gt a b = true) →
      ∀ v, all.find? p = some v →
        ∀ w ∈ all, p w = true → w = v ∨ SemVer.gt v w = true := by
  intro all
  induction all with
  | nil => intro _ v h; simp at h
  | cons x xs ih =>
    intro hpw v hfind w hw hpwt
    by_cases hx : p x = true
    · rw [List.find?_cons_of_pos _ hx] at hfind
      have hv : v = x := (Option.some.inj hfind).symm
      subst hv
      rcases List.mem_cons.mp hw with h | h
      · exact Or.inl h
      · exact Or.inr ((List.pairwise_cons.mp hpw).1 w h)
    · rw [List.find?_cons_of_neg _ (by simpa using hx)] at hfind
      rcases List.mem_cons.mp hw with h | h
      · rw [h] at hpwt
        exact absurd hpwt hx
      · exact ih (List.pairwise_cons.mp hpw).2 v hfind w h hpwt

theorem resolve_version_no_or_no_hyphen (all : List SemVer) (name spec : String)
    (hex : (SemVer.parse spec).isSome = false)
    (hor : containsSub spec "||" = false)
    (hhy : (containsChar spec '-' && containsChar spec ' ') = false) :
    resolve_version all name spec = resolve_after_ranges all name spec := by
  rw [resolve_version.eq_def]
  rw [if_neg (by simp [hex])]
  rw [dif_neg (by simp [hor])]
  rw [if_neg (by simp [hhy])]

theorem resolve_after_ranges_req (all : List SemVer) (name spec : String)
    (req : VersionReq) (v : SemVer)
    (hreq : VersionReq.parse (normalize_spec spec) = some req)
    (hfind : all.find? (fun w => req.matches w) = some v) :
    resolve_after_ranges all name spec = .ok v.toString := by
  simp only [resolve_after_ranges, hreq, hfind]

theorem resolve_after_ranges_fallback (all : List SemVer) (name spec : String)
    (v : SemVer)
    (hnoreq : ∀ req, VersionReq.parse (normalize_spec spec) = some req →
        all.find? (fun w => req.matches w) = none)
    (hsw : all.find? (fun w => strStartsWith w.toString spec) = some v) :
    resolve_after_ranges all name spec = .ok v.toString := by
  cases hp : VersionReq.parse (normalize_spec spec) with
  | none => simp only [resolve_after_ranges, hp, hsw]
  | some req => simp only [resolve_after_ranges, hp, hnoreq req hp, hsw]

theorem resolve_version_or_branch (all : List SemVer) (name spec : String)
    (hex : (SemVer.parse spec).isSome = false)
    (hor : containsSub spec "||" = true)
    (v0 : SemVer)
    (hbound : ∀ part ∈ splitOr spec.toList, ∀ r,
        clause_result all name part = some r → r = v0 ∨ SemVer.lt r v0 = true)
    (hhit : ∃ part ∈ splitOr spec.toList,
        clause_result all name part = some v0) :
    resolve_version all name spec = .ok v0.toString := by
  rw [resolve_version.eq_def]
  rw [if_neg (by simp [hex])]
  rw [dif_pos hor]
  have hfun : (fun (best : Option SemVer)
        (pc : {x // x ∈ splitOr spec.toList}) =>
        let clause := trimStr (String.mk pc.1)
        if clause.isEmpty then best
        else
          match resolve_version all name clause with
          | .ok vs =>
            match SemVer.parse vs with
            | some ver =>
              if (match best with | some b => SemVer.gt ver b | none => true)
              then some ver else best
            | none => best
          | .error _ => best)
      = (fun best pc =>
          match clause_result all name pc.1 with
          | some ver =>
            if best.elim true (fun b => SemVer.gt ver b)
            then some ver else best
          | none => best) := by
    funext best pc
    show (if (trimStr (String.mk pc.1)).isEmpty then best
        else
          match resolve_version all name (trimStr (String.mk pc.1)) with
          | .ok vs =>
            match SemVer.parse vs with
            | some ver =>
              if (match best with | some b => SemVer.gt ver b | none => true)
              then some ver else best
            | none => best
          | .error _ => best)
      = (match clause_result all name pc.1 with
          | some ver =>
            if best.elim true (fun b => SemVer.gt ver b)
            then some ver else best
          | none => best)
    unfold clause_result
    by_cases hc : (trimStr (String.mk pc.1)).isEmpty = true
    · simp [hc]
    · simp only [hc, Bool.false_eq_true, if_false]
      cases resolve_version all name (trimStr (String.mk pc.1)) with
      | ok vs =>
        show (match SemVer.parse vs with
            | some ver =>
              if (match best with | some b => SemVer.gt ver b | none => true)
              then some ver else best
            | none => best)
          = (match SemVer.parse vs with
            | some ver =>
              if best.elim true (fun b => SemVer.gt ver b)
              then some ver else best
            | none => best)
        cases SemVer.parse vs with
        | some ver => cases best <;> rfl
        | none => rfl
      | error e => rfl
  rw [hfun]
  have hfold := or_fold_unique_max
    (fun (pc : {x // x ∈ splitOr spec.toList}) => clause_result all name pc.1)
    v0 (splitOr spec.toList).attach none
    (by
      intro pc _ r hr
      exact hbound pc.1 pc.2 r hr)
    (Or.inl rfl)
    (by
      left
      obtain ⟨part, hp, hcr⟩ := hhit
      exact ⟨⟨part, hp⟩, List.mem_attach _ _, hcr⟩)
  rw [hfold]

/-- C2 counterexample: `resolve("1")` over the candidate list
`[10.0.0]` returns `10.0.0` through the starts-with fallback although
`10.0.0` does not match the normalized spec `1.x` — so resolve does not
always return a candidate matching the normalized spec. -/
theorem resolve_version_fallback_counterexample :
    resolve_version [⟨10, 0, 0, [], []⟩] "tool" "1" = .ok "10.0.0"
    ∧ (∃ req, VersionReq.parse (normalize_spec "1") = some req
        ∧ req.matches ⟨10, 0, 0, [], []⟩ = false) := by
  constructor
  · rw [resolve_version.eq_def]
    decide
  · exact ⟨⟨[⟨.wildcard, 1, none, none, []⟩]⟩, by decide, by decide⟩

/-- C2 amended: (1) an exact spec is returned unchanged with no version
list fetched; (2) otherwise, when the normalized spec parses as a
requirement, the first candidate in list order that matches it is
returned, and on a strictly descending candidate list that first match
is the greatest match; (3) for a spec containing `||`, the nonempty
trimmed clauses are resolved recursively and the unique strict maximum
of the successful results is returned; (4) when no candidate matches
the normalized requirement (or it fails to parse), resolve falls back
to the first candidate whose rendering starts with the original spec —
the claim omitted this fallback. -/
theorem resolve_version_resolution :
    (∀ (fetchRaw : String → Except String (List String))
        (cache : VersionCache) (name spec : String),
      (SemVer.parse spec).isSome = true →
      resolve_version_stateful fetchRaw cache name spec
        = (.ok spec, cache, false))
    ∧ (∀ (all : List SemVer) (name spec : String) (req : VersionReq)
        (v : SemVer),
      (SemVer.parse spec).isSome = false →
      containsSub spec "||" = false →
      (containsChar spec '-' && containsChar spec ' ') = false →
      VersionReq.parse (normalize_spec spec) = some req →
      all.find? (fun w => req.matches w) = some v →
      resolve_version all name spec = .ok v.toString
        ∧ (all.Pairwise (fun a b => SemVer.gt a b = true) →
            ∀ w ∈ all, req.matches w = true → w = v ∨ SemVer.gt v w = true))
    ∧ (∀ (all : List SemVer) (name spec : String) (v0 : SemVer),
      (SemVer.parse spec).isSome = false →
      containsSub spec "||" = true →
      (∀ part ∈ splitOr spec.toList, ∀ r,
         clause_result all name part = some r
           → r = v0 ∨ SemVer.lt r v0 = true) →
      (∃ part ∈ splitOr spec.toList, clause_result all name part = some v0) →
      resolve_version all name spec = .ok v0.toString)
    ∧ (∀ (all : List SemVer) (name spec : String) (v : SemVer),
      (SemVer.parse spec).isSome = false →
      containsSub spec "||" = false →
      (containsChar spec '-' && containsChar spec ' ') = false →
      (∀ req, VersionReq.parse (normalize_spec spec) = some req →
          all.find? (fun w => req.matches w) = none) →
      all.find? (fun w => strStartsWith w.toString spec) = some v →
      resolve_version all name spec = .ok v.toString) := by
  refine ⟨?_, ?_, ?_, ?_⟩
  · intro f cache name spec h
    unfold resolve_version_stateful
    rw [if_pos h]
  · intro all name spec req v hex hor hhy hreq hfind
    refine ⟨?_, ?_⟩
    · rw [resolve_version_no_or_no_hyphen all name spec hex hor hhy]
      exact resolve_after_ranges_req all name spec req v hreq hfind
    · intro hsort w hw hpw
      exact find_first_greatest all hsort v hfind w hw hpw
  · intro all name spec v0 hex hor hbound hhit
    exact resolve_version_or_branch all name spec hex hor v0 hbound hhit
  · intro all name spec v hex hor hhy hnoreq hsw
    rw [resolve_version_no_or_no_hyphen all name spec hex hor hhy]
    exact resolve_after_ranges_fallback all name spec v hnoreq hsw

/-- C2 witness: the four behaviours at concrete inputs — exact `3.14.3`
untouched with no fetch; `^3.14.0` resolving to the first (greatest)
match `3.14.3`; `3.14.2 || 3.13.9` resolving to the greater clause
`3.14.2`; and `1` over `[10.0.0]` resolving through the starts-with
fallback. -/
theorem resolve_version_resolution_witness :
    resolve_version_stateful (fun _ => .error "transport failure") ⟨[]⟩
      "helm" "3.14.3" = (.ok "3.14.3", ⟨[]⟩, false)
    ∧ resolve_version versionsW "helm" "^3.14.0" = .ok "3.14.3"
    ∧ resolve_version versionsW "helm" "3.14.2 || 3.13.9" = .ok "3.14.2"
    ∧ resolve_version [⟨10, 0, 0, [], []⟩] "tool2" "1" = .ok "10.0.0" := by
  refine ⟨?_, ?_, ?_, ?_⟩
  · exact resolve_version_resolution.1 (fun _ => .error "transport failure")
      ⟨[]⟩ "helm" "3.14.3" (by decide)
  · have h := (resolve_version_resolution.2.1 versionsW "helm" "^3.14.0"
      ⟨[⟨.caret, 3, some 14, some 0, []⟩]⟩ ⟨3, 14, 3, [], []⟩
      (by decide) (by decide) (by decide) (by decide) (by decide)).1
    rw [h]
    decide
  · have hparts : splitOr ("3.14.2 || 3.13.9" : String).toList
        = [("3.14.2 " : String).toList, (" 3.13.9" : String).toList] := by
      decide
    have e1 : clause_result versionsW "helm" ("3.14.2 " : String).toList
        = some ⟨3, 14, 2, [], []⟩ := by
      simp only [clause_result]
      rw [resolve_version.eq_def]
      decide
    have e2 : clause_result versionsW "helm" (" 3.13.9" : String).toList
        = some ⟨3, 13, 9, [], []⟩ := by
      simp only [clause_result]
      rw [resolve_version.eq_def]
      decide
    have h := resolve_version_resolution.2.2.1 versionsW "helm"
      "3.14.2 || 3.13.9" ⟨3, 14, 2, [], []⟩ (by decide) (by decide)
      (by
        intro part hp r hcr
        rw [hparts] at hp
        rcases List.mem_cons.mp hp with h1 | h1
        · rw [h1, e1] at hcr
          exact Or.inl (Option.some.inj hcr).symm
        · rcases List.mem_cons.mp h1 with h2 | h2
          · rw [h2, e2] at hcr
            have : r = ⟨3, 13, 9, [], []⟩ := (Option.some.inj hcr).symm
            rw [this]
            right
            decide
          · exact absurd h2 (List.not_mem_nil part))
      (by
        refine ⟨("3.14.2 " : String).toList, ?_, e1⟩
        rw [hparts]
        exact List.mem_cons_self _ _)
    rw [h]
    decide
  · have h := resolve_version_resolution.2.2.2 [⟨10, 0, 0, [], []⟩] "tool2" "1"
      ⟨10, 0, 0, [], []⟩ (by decide) (by decide) (by decide)
      (by
        intro req hr
        have h2 : some req
            = some (⟨[⟨.wildcard, 1, none, none, []⟩]⟩ : VersionReq) := by
          rw [← hr]
          decide
        cases Option.some.inj h2
        decide)
      (by decide)
    rw [h]
    decide

end Tlk
